import Mathlib

/-!
# Verification of the Argo CD Lua customization engine (`util/lua/lua.go`)

This file shallowly embeds the script-result interpretation pipeline of the
repository's `util/lua/lua.go`:

* a dynamic JSON-like value model (`JValue`) standing for Go's
  `map[string]any` / `[]any` / scalar values produced by decoding the JSON
  emitted by `layeh.com/gopher-json` from a Lua table;
* the recursive empty-collection "cleaning" pass (`cleanReturnedObj`,
  `cleanReturnedArray`);
* health-result interpretation (`ExecuteHealthLua` and helpers);
* the action output-format sniffing of `ExecuteResourceAction`;
* the action-discovery union-merge (`ExecuteResourceActionDiscovery`);
* the health-script resolution precedence (`GetHealthScript` and helpers).

Go maps are modelled as association lists; Go map iteration order is
unspecified, and each function below is written so that the modelled result
is the same for the orders the Go code can exhibit (updates and lookups are
per-key).  Machine-level details (the embedded filesystem, the glob matcher
libraries, `encoding/json` for external struct types) are taken as explicit
parameters, so the theorems hold for every instantiation.
-/

/-- Dynamic JSON-like value: the host-side model of a decoded Lua table
(`map[string]any` / `[]any` / scalars in the Go source).  Object fields are
an association list standing for a Go map (unique keys, unordered). -/
inductive JValue where
  | null : JValue
  | bool : Bool → JValue
  | num : Int → JValue
  | str : String → JValue
  | arr : List JValue → JValue
  | obj : List (String × JValue) → JValue
  deriving Inhabited

/-- Association-list lookup modelling Go's `m[key]` map read (`ok` pattern):
`none` means the key is absent. -/
def alookup {α : Type} (l : List (String × α)) (k : String) : Option α :=
  (l.find? (fun p => p.1 == k)).map (·.2)

@[simp] theorem alookup_nil {α : Type} (k : String) : alookup ([] : List (String × α)) k = none := rfl

theorem alookup_cons {α : Type} (k₀ : String) (v : α) (rest : List (String × α)) (k : String) :
    alookup ((k₀, v) :: rest) k = if k₀ = k then some v else alookup rest k := by
  simp only [alookup, List.find?]
  by_cases h : k₀ = k
  · simp [h]
  · have hb : (k₀ == k) = false := beq_eq_false_iff_ne.mpr h
    simp [hb, h]

mutual

/-- Model of the per-key dispatch inside `cleanReturnedObj`
(`lua.go:274-303`): given the new value and the original value stored under
one key present in both maps, produce the cleaned value.  `none` models a Go
runtime panic (index out of range inside `cleanReturnedArray`). -/
def cleanEntry : JValue → JValue → Option JValue
  | .obj n, .obj o => (cleanReturnedObj n o).map JValue.obj
  | .obj n, _ => some (.obj n)
  | .arr n, .obj o => some (if n.isEmpty then .obj o else .arr n)
  | .arr n, .arr o => (cleanReturnedArray n o).map JValue.arr
  | .arr n, _ => some (.arr n)
  | v, _ => some v

/-- Model of `cleanReturnedObj` (`lua.go:274-303`).  The Go code iterates
over the keys of the original map `obj` and updates the returned map
`newObj` in place at each key also present in `newObj`; since each update
touches exactly the key being visited, this equals mapping every entry of
`newObj` through `cleanEntry` against the original value under the same key
(entries whose key is absent from `obj` are kept unchanged). -/
def cleanReturnedObj : List (String × JValue) → List (String × JValue) → Option (List (String × JValue))
  | [], _ => some []
  | (k, v) :: rest, obj =>
    match alookup obj k with
    | none => (cleanReturnedObj rest obj).map ((k, v) :: ·)
    | some oldV => do
      let v' ← cleanEntry v oldV
      let rest' ← cleanReturnedObj rest obj
      pure ((k, v') :: rest')

/-- Model of `cleanReturnedArray` (`lua.go:307-324`): element-by-element
recursion over the new array.  When the new element is a map or a list, the
Go code indexes `obj[i]`, which panics when the original array is shorter;
that panic is modelled as `none`.  Note that an empty-list element whose
original counterpart is a map is left unchanged: the empty-list-to-map
replacement exists only at map keys in `cleanReturnedObj`. -/
def cleanReturnedArray : List JValue → List JValue → Option (List JValue)
  | [], _ => some []
  | newV :: newRest, [] =>
    match newV with
    | .obj _ => none
    | .arr _ => none
    | v => (cleanReturnedArray newRest []).map (v :: ·)
  | newV :: newRest, oldV :: oldRest =>
    match newV, oldV with
    | .obj n, .obj o => do
      let c ← cleanReturnedObj n o
      let r ← cleanReturnedArray newRest oldRest
      pure (JValue.obj c :: r)
    | .obj n, _ => (cleanReturnedArray newRest oldRest).map (JValue.obj n :: ·)
    | .arr n, .arr o => do
      let c ← cleanReturnedArray n o
      let r ← cleanReturnedArray newRest oldRest
      pure (JValue.arr c :: r)
    | .arr n, _ => (cleanReturnedArray newRest oldRest).map (JValue.arr n :: ·)
    | v, _ => (cleanReturnedArray newRest oldRest).map (v :: ·)

end

example : cleanReturnedObj [("a", .arr [])] [("a", .obj [])] = some [("a", .obj [])] := rfl

example : cleanReturnedObj [("a", .arr [.arr []])] [("a", .arr [.obj []])]
    = some [("a", .arr [.arr []])] := rfl

/-- C1 counterexample: the cleaning pass does not restore an empty map that
is a direct element of a list.  With original object `{"a": [{}]}` and
returned object `{"a": [[]]}` (the structural encoder's rendering of the
unchanged original), the cleaned result keeps the empty list element, so
the claimed element-by-element empty-map restoration inside nested lists
fails at this concrete input. -/
theorem cleanReturnedArray_keeps_empty_list_element :
    cleanReturnedObj [("a", .arr [.arr []])] [("a", .arr [.obj []])]
        = some [("a", .arr [.arr []])] ∧
      cleanReturnedObj [("a", .arr [.arr []])] [("a", .arr [.obj []])]
        ≠ some [("a", .arr [.obj []])] := by
  refine ⟨rfl, ?_⟩
  intro h
  rw [show cleanReturnedObj [("a", .arr [.arr []])] [("a", .arr [.obj []])]
        = some [("a", .arr [.arr []])] from rfl] at h
  simp at h

/-- Key-level part of the cleaning guarantee: whenever the cleaning pass
completes, a key whose original value was the empty map `{}` and whose
returned value is the empty list `[]` is restored to the original empty
map. -/
theorem cleanReturnedObj_restores_empty_map_at_key (newObj : List (String × JValue)) :
    ∀ (obj res : List (String × JValue)) (k : String),
      cleanReturnedObj newObj obj = some res →
      alookup obj k = some (.obj []) →
      alookup newObj k = some (.arr []) →
      alookup res k = some (.obj []) := by
  induction newObj with
  | nil =>
    intro obj res k _ _ hnew
    simp [alookup] at hnew
  | cons hd tl ih =>
    obtain ⟨k₀, v⟩ := hd
    intro obj res k h hobj hnew
    rw [alookup_cons] at hnew
    by_cases hk : k₀ = k
    · subst hk
      rw [if_pos rfl] at hnew
      have hv : v = JValue.arr [] := by
        injection hnew
      subst hv
      simp only [cleanReturnedObj, hobj] at h
      simp only [cleanEntry, List.isEmpty_nil, if_pos] at h
      cases htl : cleanReturnedObj tl obj with
      | none => rw [htl] at h; simp at h
      | some rest =>
        rw [htl] at h
        have hres : res = (k₀, JValue.obj []) :: rest := by
          injection h with h; exact h.symm
        subst hres
        rw [alookup_cons, if_pos rfl]
    · rw [if_neg hk] at hnew
      cases hol : alookup obj k₀ with
      | none =>
        simp only [cleanReturnedObj, hol] at h
        cases htl : cleanReturnedObj tl obj with
        | none => rw [htl] at h; simp at h
        | some rest =>
          rw [htl] at h
          have hres : res = (k₀, v) :: rest := by
            injection h with h; exact h.symm
          subst hres
          rw [alookup_cons, if_neg hk]
          exact ih obj rest k htl hobj hnew
      | some oldV =>
        simp only [cleanReturnedObj, hol] at h
        cases hce : cleanEntry v oldV with
        | none => rw [hce] at h; simp at h
        | some v' =>
          rw [hce] at h
          cases htl : cleanReturnedObj tl obj with
          | none => rw [htl] at h; simp at h
          | some rest =>
            rw [htl] at h
            have hres : res = (k₀, v') :: rest := by
              injection h with h; exact h.symm
            subst hres
            rw [alookup_cons, if_neg hk]
            exact ih obj rest k htl hobj hnew

/-- C1 (amended): whenever the cleaning pass completes, a key whose value in
the original object is the empty map `{}` and whose value in the returned
object is the empty list `[]` holds the original empty map in the cleaned
result; the same key-level correction applies recursively inside nested
maps (map/map entries recurse into `cleanReturnedObj`); inside nested lists
the pass recurses only for map/map and list/list element pairs, and an
empty-list element whose original counterpart was a map is left unchanged
(the empty-list-to-empty-map replacement exists only at map keys). -/
theorem cleaning_restores_empty_maps_at_keys :
    (∀ (newObj obj res : List (String × JValue)) (k : String),
        cleanReturnedObj newObj obj = some res →
        alookup obj k = some (.obj []) →
        alookup newObj k = some (.arr []) →
        alookup res k = some (.obj []))
    ∧ (∀ (n o : List (String × JValue)),
        cleanEntry (.obj n) (.obj o) = (cleanReturnedObj n o).map JValue.obj)
    ∧ (∀ (ns os : List JValue) (o : List (String × JValue)),
        cleanReturnedArray (.arr [] :: ns) (.obj o :: os)
          = (cleanReturnedArray ns os).map (List.cons (JValue.arr []))) := by
  refine ⟨fun newObj => cleanReturnedObj_restores_empty_map_at_key newObj, ?_, ?_⟩
  · intro n o
    rfl
  · intro ns os o
    rfl

/-- C1 witness: the amended theorem applied at the one-key object
`orig = {"a": {}}`, `new = {"a": []}`. -/
theorem cleaning_restores_empty_maps_at_keys_witness :
    alookup [("a", JValue.obj [])] "a" = some (JValue.obj []) :=
  cleaning_restores_empty_maps_at_keys.1
    [("a", JValue.arr [])] [("a", JValue.obj [])] [("a", JValue.obj [])] "a" rfl rfl rfl

/-- Value at the top of the interpreter stack after a script run
(`l.Get(-1)` in the Go source), classified by the gopher-lua value type.
A table is carried as its structural `JValue` content. -/
inductive LuaValue where
  | lnil
  | lbool (b : Bool)
  | lnum (n : Int)
  | lstr (s : String)
  | ltable (v : JValue)
  | lfunction

/-- The gopher-lua `Type().String()` name used in error messages. -/
def LuaValue.typeName : LuaValue → String
  | .lnil => "nil"
  | .lbool _ => "boolean"
  | .lnum _ => "number"
  | .lstr _ => "string"
  | .ltable _ => "table"
  | .lfunction => "function"

/-- The `incorrectReturnType` format constant of `lua.go:32`:
`"expect %s output from Lua script, not %s"`. -/
def incorrectReturnTypeMsg (expected actual : String) : String :=
  "expect " ++ expected ++ " output from Lua script, not " ++ actual

/-- JSON string escaping (quote and backslash), enough to model the
`encoding/json` output consumed by this file sniff-first. -/
def jsonEscapeChar (c : Char) : List Char :=
  if c = '"' ∨ c = '\\' then ['\\', c] else [c]

/-- JSON encoding of a string literal, as a character list. -/
def jsonEncodeString (s : String) : List Char :=
  '"' :: (s.data.flatMap jsonEscapeChar ++ ['"'])

mutual

/-- Model of `luajson.Encode` (layeh.com/gopher-json) applied to the
value a script returned, producing the JSON text as a character list
(the Go code inspects individual bytes of this text).  The one structural
quirk that drives the surrounding code: an empty Lua table is encoded as
the empty array `[]`, never as `\x7b\x7d`, so `JValue.obj []` encodes to
`[]`.  Field order follows the model's association-list order; no claim
below depends on field order. -/
def luaJsonEncode : JValue → List Char
  | .null => "null".data
  | .bool true => "true".data
  | .bool false => "false".data
  | .num n => (toString n).data
  | .str s => jsonEncodeString s
  | .arr xs => '[' :: (luaJsonEncodeElems xs ++ [']'])
  | .obj [] => ['[', ']']
  | .obj (f :: fs) => '{' :: ((luaJsonEncodeField f ++ luaJsonEncodeFields fs) ++ ['}'])

/-- Comma-separated encoding of array elements. -/
def luaJsonEncodeElems : List JValue → List Char
  | [] => []
  | [x] => luaJsonEncode x
  | x :: xs => luaJsonEncode x ++ ',' :: luaJsonEncodeElems xs

/-- Encoding of a single object field. -/
def luaJsonEncodeField : String × JValue → List Char
  | (k, v) => jsonEncodeString k ++ ':' :: luaJsonEncode v

/-- Encoding of the remaining object fields, each preceded by a comma. -/
def luaJsonEncodeFields : List (String × JValue) → List Char
  | [] => []
  | f :: fs => ',' :: (luaJsonEncodeField f ++ luaJsonEncodeFields fs)

end

/-- The `health.HealthStatus` struct of gitops-engine: a status code
(a string type in Go) and a free-text message, with JSON field names
`status` and `message`. -/
structure HealthStatus where
  status : String
  message : String
  deriving DecidableEq

/-- Error produced by the structural decode (`json.Unmarshal`): either a
`*json.UnmarshalTypeError` carrying the JSON kind that did not fit, or any
other decode error. -/
inductive JsonErr where
  | unmarshalTypeError (value : String)
  | otherErr (msg : String)
  deriving DecidableEq

/-- The JSON kind name `encoding/json` reports in an
`UnmarshalTypeError.Value`. -/
def jsonKind : JValue → String
  | .null => "null"
  | .bool _ => "bool"
  | .num _ => "number"
  | .str _ => "string"
  | .arr _ => "array"
  | .obj _ => "object"

/-- Decoding one string-typed struct field from a JSON object:
absent or `null` leaves the zero value, a string decodes, and any other
kind is an `UnmarshalTypeError` naming that kind. -/
def decodeStringField (fields : List (String × JValue)) (name : String) : Except JsonErr String :=
  match alookup fields name with
  | none => .ok ""
  | some .null => .ok ""
  | some (.str s) => .ok s
  | some v => .error (.unmarshalTypeError (jsonKind v))

/-- Model of `json.Unmarshal(luajson.Encode(v), &health.HealthStatus)` as
one structural pass: an empty table was encoded as `[]`, so it (like any
array) fails with an `UnmarshalTypeError` whose kind is `array`; a
non-empty object decodes its `status` and `message` fields, ignoring the
rest. -/
def unmarshalHealthStatus : JValue → Except JsonErr HealthStatus
  | .obj [] => .error (.unmarshalTypeError "array")
  | .obj fields => do
    let s ← decodeStringField fields "status"
    let m ← decodeStringField fields "message"
    pure ⟨s, m⟩
  | .arr _ => .error (.unmarshalTypeError "array")
  | v => .error (.unmarshalTypeError (jsonKind v))

/-- The `invalidHealthStatus` message constant of `lua.go:33`. -/
def invalidHealthStatus : String := "Lua returned an invalid health status"

/-- Model of `isValidHealthStatusCode` (`lua.go:585-591`). -/
def isValidHealthStatusCode (statusCode : String) : Bool :=
  statusCode == "Unknown" || statusCode == "Progressing" || statusCode == "Suspended" ||
    statusCode == "Healthy" || statusCode == "Degraded" || statusCode == "Missing"

/-- Model of `ExecuteHealthLua` (`lua.go:132-165`) from the point where the
script has run and left `returnValue` on the stack.  The
`errors.As(err, &typeError)` check in the Go source matches any
`*json.UnmarshalTypeError` regardless of the template's `Value: "array"`
field (`errors.As` only inspects the dynamic type), which is what the
first error branch reproduces. -/
def ExecuteHealthLua (returnValue : LuaValue) : Except String HealthStatus :=
  match returnValue with
  | .ltable v =>
    match unmarshalHealthStatus v with
    | .error (.unmarshalTypeError _) => .ok ⟨"", ""⟩
    | .error (.otherErr m) => .error m
    | .ok healthStatus =>
      if isValidHealthStatusCode healthStatus.status then .ok healthStatus
      else .ok ⟨"Unknown", invalidHealthStatus⟩
  | .lnil => .ok ⟨"", ""⟩
  | rv => .error (incorrectReturnTypeMsg "table" rv.typeName)

/-- C4: at the failing input, a Lua table `\x7bstatus = 2\x7d` whose decode
failure is a `number`-kind `UnmarshalTypeError` (not the documented
empty-aggregate `array` ambiguity), the code still coerces the result to a
zero-value `HealthStatus` instead of propagating the decode error, because
`errors.As` matches any `*json.UnmarshalTypeError` whatever its fields. -/
theorem executeHealthLua_tolerates_any_unmarshal_type_error :
    ExecuteHealthLua (.ltable (.obj [("status", .num 2)])) = .ok ⟨"", ""⟩ ∧
      unmarshalHealthStatus (.obj [("status", .num 2)])
        = .error (.unmarshalTypeError "number") := by
  exact ⟨rfl, rfl⟩

/-- C7: once the returned aggregate decodes to a `HealthStatus`, a status
code outside the closed six-value enumeration yields status `Unknown` with
the fixed invalid-status message and no error, while a status code inside
the enumeration is passed through with its message unmodified. -/
theorem executeHealthLua_validates_status_code :
    ∀ (v : JValue) (hs : HealthStatus),
      unmarshalHealthStatus v = .ok hs →
      ExecuteHealthLua (.ltable v)
        = if isValidHealthStatusCode hs.status then .ok hs
          else .ok ⟨"Unknown", invalidHealthStatus⟩ := by
  intro v hs h
  simp only [ExecuteHealthLua, h]

/-- C7 witness: a script result `\x7bstatus = "Borked"\x7d` decodes, is not a
valid status code, and is replaced by `Unknown` plus the fixed message. -/
theorem executeHealthLua_validates_status_code_witness :
    ExecuteHealthLua (.ltable (.obj [("status", .str "Borked")]))
      = .ok ⟨"Unknown", invalidHealthStatus⟩ := by
  have h := executeHealthLua_validates_status_code (.obj [("status", .str "Borked")]) ⟨"Borked", ""⟩ rfl
  simpa [isValidHealthStatusCode] using h

/-- C8: a script that leaves the interpreter's nil on the stack yields the
zero-value `HealthStatus` (empty status, empty message) without error, and
every non-table, non-nil return value yields the error naming the expected
shape (`table`) and the actual shape. -/
theorem executeHealthLua_nil_and_wrong_types :
    ExecuteHealthLua .lnil = .ok ⟨"", ""⟩
    ∧ (∀ b : Bool, ExecuteHealthLua (.lbool b)
        = .error (incorrectReturnTypeMsg "table" "boolean"))
    ∧ (∀ n : Int, ExecuteHealthLua (.lnum n)
        = .error (incorrectReturnTypeMsg "table" "number"))
    ∧ (∀ s : String, ExecuteHealthLua (.lstr s)
        = .error (incorrectReturnTypeMsg "table" "string"))
    ∧ ExecuteHealthLua .lfunction = .error (incorrectReturnTypeMsg "table" "function") := by
  exact ⟨rfl, fun _ => rfl, fun _ => rfl, fun _ => rfl, rfl⟩

/-- Operation kind attached to an impacted resource.  Modelled from the
spec: the operation enumeration of the action protocol
(Patch, Create, Delete) — the Go `K8SOperation` type and its
`PatchOperation` constant are declared outside the sampled sources. -/
inductive K8SOperation where
  | patch
  | create
  | delete
  deriving DecidableEq

/-- Modelled from the spec: an impacted resource is a pair of the resulting
Kubernetes object and the operation kind to apply (the Go `ImpactedResource`
struct is declared outside the sampled sources). -/
structure ImpactedResource where
  unstructuredObj : List (String × JValue)
  k8sOperation : K8SOperation

/-- Model of `UnmarshalToImpactedResources` (`lua.go:258-269`): the empty
string and the literal `null` yield an empty result without consulting the
JSON decoder; everything else is handed to `json.Unmarshal` for the
`[]ImpactedResource` type, which is outside the sampled sources and is
therefore an explicit parameter. -/
def UnmarshalToImpactedResources
    (jsonUnmarshalImpacted : List Char → Except String (List ImpactedResource))
    (resources : List Char) : Except String (List ImpactedResource) :=
  if resources = [] ∨ resources = ['n', 'u', 'l', 'l'] then .ok []
  else jsonUnmarshalImpacted resources

/-- The per-entry cleaning applied by `ExecuteResourceAction`
(`lua.go:246-251`): only `Patch`-tagged entries have their object passed
through `cleanReturnedObj` against the original input object. -/
def cleanOneImpactedResource (origObj : List (String × JValue)) (r : ImpactedResource) :
    Option ImpactedResource :=
  if r.k8sOperation = .patch then
    (cleanReturnedObj r.unstructuredObj origObj).map
      (fun o => ImpactedResource.mk o r.k8sOperation)
  else
    some r

/-- The loop of `lua.go:246-251` over all decoded impacted resources. -/
def cleanImpactedResources (origObj : List (String × JValue)) :
    List ImpactedResource → Option (List ImpactedResource)
  | [] => some []
  | r :: rs => do
    let r' ← cleanOneImpactedResource origObj r
    let rs' ← cleanImpactedResources origObj rs
    pure (r' :: rs')

/-- Model of `ExecuteResourceAction` (`lua.go:207-255`) from the point where
the script has run and left `returnValue` on the stack.  The two JSON
decoders for types declared outside the sampled sources are parameters; the
format decision sniffs the first and last byte of the encoded text exactly
as the Go code does.  `none` models a panic inside the cleaning pass. -/
def ExecuteResourceAction
    (jsonUnmarshalImpacted : List Char → Except String (List ImpactedResource))
    (jsonUnmarshalObj : List Char → Except String (List (String × JValue)))
    (origObj : List (String × JValue)) (returnValue : LuaValue) :
    Option (Except String (List ImpactedResource)) :=
  match returnValue with
  | .ltable v =>
    let jsonString := luaJsonEncode v
    if jsonString.length < 2 then
      some (.error "Lua output was not a valid json object or array")
    else
      let decoded : Except String (List ImpactedResource) :=
        if jsonString.head? = some '[' ∧ jsonString.getLast? = some ']' then
          UnmarshalToImpactedResources jsonUnmarshalImpacted jsonString
        else
          (jsonUnmarshalObj jsonString).map (fun newObj => [ImpactedResource.mk newObj .patch])
      match decoded with
      | .error e => some (.error e)
      | .ok impactedResources =>
        (cleanImpactedResources origObj impactedResources).map Except.ok
  | rv => some (.error (incorrectReturnTypeMsg "table" rv.typeName))

/-- The encoded text of a non-empty array starts with `[`, ends with `]`. -/
theorem luaJsonEncode_arr_head_last (xs : List JValue) :
    (luaJsonEncode (.arr xs)).head? = some '['
      ∧ (luaJsonEncode (.arr xs)).getLast? = some ']' := by
  constructor
  · rfl
  · show (('[' :: (luaJsonEncodeElems xs ++ [']'])).getLast? = some ']')
    rw [← List.cons_append]
    exact List.getLast?_concat _

/-- The encoded text of a non-empty object starts with an opening curly
brace and ends with a closing curly brace. -/
theorem luaJsonEncode_obj_head_last (f : String × JValue) (fs : List (String × JValue)) :
    (luaJsonEncode (.obj (f :: fs))).head? = some '\x7b'
      ∧ (luaJsonEncode (.obj (f :: fs))).getLast? = some '\x7d' := by
  constructor
  · rfl
  · show (('\x7b' :: ((luaJsonEncodeField f ++ luaJsonEncodeFields fs) ++ ['\x7d'])).getLast?
      = some '\x7d')
    rw [← List.cons_append]
    exact List.getLast?_concat _

/-- Encoded text of a table is at least two characters long. -/
theorem luaJsonEncode_table_length (v : JValue) :
    (∀ xs, v = .arr xs → ¬ (luaJsonEncode v).length < 2)
    ∧ (∀ fields, v = .obj fields → ¬ (luaJsonEncode v).length < 2) := by
  constructor
  · rintro xs rfl
    show ¬ ('[' :: (luaJsonEncodeElems xs ++ [']'])).length < 2
    simp [List.length_cons, List.length_append]
  · rintro fields rfl
    cases fields with
    | nil => decide
    | cons f fs =>
      show ¬ ('\x7b' :: ((luaJsonEncodeField f ++ luaJsonEncodeFields fs) ++ ['\x7d'])).length < 2
      simp [List.length_cons, List.length_append]
      omega

/-- Unfolding of `ExecuteResourceAction` on a table return value. -/
theorem executeResourceAction_ltable
    (uI : List Char → Except String (List ImpactedResource))
    (uO : List Char → Except String (List (String × JValue)))
    (orig : List (String × JValue)) (v : JValue) :
    ExecuteResourceAction uI uO orig (.ltable v)
      = (if (luaJsonEncode v).length < 2 then
          some (.error "Lua output was not a valid json object or array")
        else
          match (if (luaJsonEncode v).head? = some '[' ∧ (luaJsonEncode v).getLast? = some ']'
              then UnmarshalToImpactedResources uI (luaJsonEncode v)
              else (uO (luaJsonEncode v)).map (fun newObj => [ImpactedResource.mk newObj .patch]))
            with
          | .error e => some (.error e)
          | .ok rs => (cleanImpactedResources orig rs).map Except.ok) := rfl

/-- C3: the action-result format is decided by sniffing the structurally
encoded text.  Encoded arrays (and the empty table, which the encoder
renders as `[]`) are exactly the texts whose first byte is `[` and last
byte is `]`; those are decoded through `UnmarshalToImpactedResources` as a
new-style list of resource/operation pairs, while a non-empty object (first
byte a curly brace) is decoded as a single legacy Kubernetes object and
wrapped as a one-element list tagged with the Patch operation. -/
theorem executeResourceAction_sniffs_format :
    (∀ xs : List JValue, (luaJsonEncode (.arr xs)).head? = some '['
        ∧ (luaJsonEncode (.arr xs)).getLast? = some ']')
    ∧ ((luaJsonEncode (.obj [])).head? = some '['
        ∧ (luaJsonEncode (.obj [])).getLast? = some ']')
    ∧ (∀ (f : String × JValue) (fs : List (String × JValue)),
        (luaJsonEncode (.obj (f :: fs))).head? = some '\x7b'
          ∧ ¬ ((luaJsonEncode (.obj (f :: fs))).head? = some '['
                ∧ (luaJsonEncode (.obj (f :: fs))).getLast? = some ']'))
    ∧ (∀ uI uO orig (xs : List JValue),
        ExecuteResourceAction uI uO orig (.ltable (.arr xs))
          = match UnmarshalToImpactedResources uI (luaJsonEncode (.arr xs)) with
            | .error e => some (.error e)
            | .ok rs => (cleanImpactedResources orig rs).map Except.ok)
    ∧ (∀ uI uO orig,
        ExecuteResourceAction uI uO orig (.ltable (.obj []))
          = match uI ['[', ']'] with
            | .error e => some (.error e)
            | .ok rs => (cleanImpactedResources orig rs).map Except.ok)
    ∧ (∀ uI uO orig (f : String × JValue) (fs : List (String × JValue)),
        ExecuteResourceAction uI uO orig (.ltable (.obj (f :: fs)))
          = match (uO (luaJsonEncode (.obj (f :: fs)))).map
                (fun newObj => [ImpactedResource.mk newObj .patch]) with
            | .error e => some (.error e)
            | .ok rs => (cleanImpactedResources orig rs).map Except.ok) := by
  refine ⟨luaJsonEncode_arr_head_last, ⟨rfl, rfl⟩, ?_, ?_, ?_, ?_⟩
  · intro f fs
    refine ⟨(luaJsonEncode_obj_head_last f fs).1, ?_⟩
    rintro ⟨h1, _⟩
    rw [(luaJsonEncode_obj_head_last f fs).1] at h1
    simp at h1
  · intro uI uO orig xs
    rw [executeResourceAction_ltable,
      if_neg ((luaJsonEncode_table_length (.arr xs)).1 xs rfl),
      if_pos (luaJsonEncode_arr_head_last xs)]
  · intro uI uO orig
    rw [executeResourceAction_ltable]
    rw [if_neg (by decide : ¬ (luaJsonEncode (.obj [])).length < 2)]
    rw [if_pos (⟨rfl, rfl⟩ : (luaJsonEncode (.obj ([] : List (String × JValue)))).head? = some '['
      ∧ (luaJsonEncode (.obj ([] : List (String × JValue)))).getLast? = some ']')]
    rw [show UnmarshalToImpactedResources uI (luaJsonEncode (.obj ([] : List (String × JValue))))
      = uI ['[', ']'] from by simp [UnmarshalToImpactedResources, luaJsonEncode]]
  · intro uI uO orig f fs
    rw [executeResourceAction_ltable,
      if_neg ((luaJsonEncode_table_length (.obj (f :: fs))).2 (f :: fs) rfl)]
    rw [if_neg ?_]
    rintro ⟨h1, _⟩
    rw [(luaJsonEncode_obj_head_last f fs).1] at h1
    simp at h1

/-- Modelled from the spec: a named action descriptor consisting of the
action name and its disabled flag (absent means enabled).  The Go
`appv1.ResourceAction` struct is declared outside the sampled sources; the
spec's output contract for discovery is an unordered collection of
(name, disabled) descriptors. -/
structure ResourceAction where
  name : String
  disabled : Bool
  deriving DecidableEq

/-- Model of `isActionDisabled` (`lua.go:384-397`): for a map entry value,
the boolean stored under the `disabled` key; `false` for everything else
(actions are enabled by default). -/
def isActionDisabled (v : JValue) : Bool :=
  match v with
  | .obj fields =>
    match alookup fields "disabled" with
    | some (.bool b) => b
    | _ => false
  | _ => false

/-- Model of `emptyResourceActionFromLua` (`lua.go:399-402`): the entry
value decoded as a JSON array (the encoder's rendering of an empty Lua
table). -/
def emptyResourceActionFromLua (v : JValue) : Bool :=
  match v with
  | .arr _ => true
  | _ => false

/-- Model of `noAvailableActions` (`lua.go:404-407`): the encoded script
output is literally `[]` (an empty Lua table). -/
def noAvailableActions (jsonBytes : List Char) : Bool :=
  jsonBytes == ['[', ']']

/-- The body of the per-entry loop of `ExecuteResourceActionDiscovery`
(`lua.go:353-372`) after the name-collision check: build the descriptor for
one entry.  The second re-decode (`json.Marshal`/`json.Unmarshal` into the
descriptor struct) is modelled on the spec-level (name, disabled)
descriptor: a map entry re-reads its `disabled` boolean (a wrongly typed
`disabled` is an unmarshal error), `null` decodes as a no-op, and a scalar
cannot decode into the descriptor struct. -/
def descriptorFor (key : String) (v : JValue) : Except String ResourceAction :=
  let ra : ResourceAction := ⟨key, isActionDisabled v⟩
  if emptyResourceActionFromLua v then .ok ra
  else
    match v with
    | .obj fields =>
      match alookup fields "disabled" with
      | some (.bool b) => .ok ⟨key, b⟩
      | some .null => .ok ra
      | some _ => .error "error unmarshaling resource action"
      | none => .ok ra
    | .null => .ok ra
    | _ => .error "error unmarshaling resource action"

/-- One key/value entry of a decoded discovery table folded into the
accumulator: a name already present is never overwritten
(`lua.go:355-357`); otherwise the entry's descriptor is appended. -/
def stepField (acc : List (String × ResourceAction)) (field : String × JValue) :
    Except String (List (String × ResourceAction)) :=
  if (alookup acc field.1).isSome then .ok acc
  else (descriptorFor field.1 field.2).map (fun ra => acc ++ [(field.1, ra)])

/-- One discovery script's contribution to the accumulator
(`lua.go:332-373`): a non-table return is an error; an empty table (encoded
`[]`) contributes nothing; a table object folds its entries; any other
table shape fails to decode into the name-to-value map. -/
def stepScript (acc : List (String × ResourceAction)) (rv : LuaValue) :
    Except String (List (String × ResourceAction)) :=
  match rv with
  | .ltable v =>
    if noAvailableActions (luaJsonEncode v) then .ok acc
    else
      match v with
      | .obj fields => fields.foldlM stepField acc
      | _ => .error "error unmarshaling action table"
  | rv' => .error (incorrectReturnTypeMsg "table" rv'.typeName)

/-- Model of `ExecuteResourceActionDiscovery` (`lua.go:326-381`) from the
point where each script has run, its top-of-stack value collected in order.
The Go accumulator is a map iterated in unspecified order at the end; the
model returns the descriptors in insertion order, which fixes one of the
orders Go can produce — the claims below only inspect the result as a
name-keyed collection. -/
def ExecuteResourceActionDiscovery (results : List LuaValue) :
    Except String (List ResourceAction) :=
  match results with
  | [] => .error "no action discovery script provided"
  | _ => (results.foldlM stepScript []).map (fun acc => acc.map Prod.snd)

/-- The entry value a single script's return contributes under a given
action name: for a table-object return, the field stored under that name
(an empty table has no fields and contributes nothing). -/
def contributes (rv : LuaValue) (k : String) : Option JValue :=
  match rv with
  | .ltable (.obj fields) => alookup fields k
  | _ => none

/-- Claim-side reference definition, following the claim's words rather
than the source: the descriptor stored under an action name is the one
computed from the earliest script defining that name. -/
def specFirstWriter (results : List LuaValue) (k : String) : Option ResourceAction :=
  (results.findSome? (fun rv => contributes rv k)).bind
    (fun v => (descriptorFor k v).toOption)

theorem except_bind_ok {ε α β : Type} (x : Except ε α) (f : α → Except ε β) (b : β)
    (h : x >>= f = .ok b) : ∃ a, x = .ok a ∧ f a = .ok b := by
  cases x with
  | error e => simp [Bind.bind, Except.bind] at h
  | ok a => exact ⟨a, rfl, by simpa [Bind.bind, Except.bind] using h⟩

theorem except_map_ok {ε α β : Type} (x : Except ε α) (f : α → β) (b : β)
    (h : x.map f = .ok b) : ∃ a, x = .ok a ∧ f a = b := by
  cases x with
  | error e => simp [Except.map] at h
  | ok a =>
    refine ⟨a, rfl, ?_⟩
    simp [Except.map] at h
    exact h

theorem alookup_append_of_some {α : Type} (l t : List (String × α)) (k : String) (a : α)
    (h : alookup l k = some a) : alookup (l ++ t) k = some a := by
  induction l with
  | nil => simp at h
  | cons hd tl ih =>
    obtain ⟨k₀, v₀⟩ := hd
    rw [alookup_cons] at h
    rw [List.cons_append, alookup_cons]
    by_cases hk : k₀ = k
    · rwa [if_pos hk] at h ⊢
    · rw [if_neg hk] at h ⊢
      exact ih h

theorem alookup_append_of_none {α : Type} (l : List (String × α)) (k' k : String) (ra : α)
    (h : alookup l k = none) :
    alookup (l ++ [(k', ra)]) k = if k' = k then some ra else none := by
  induction l with
  | nil => simp [alookup_cons]
  | cons hd tl ih =>
    obtain ⟨k₀, v₀⟩ := hd
    rw [alookup_cons] at h
    rw [List.cons_append, alookup_cons]
    by_cases hk : k₀ = k
    · rw [if_pos hk] at h; exact absurd h (by simp)
    · rw [if_neg hk] at h ⊢
      exact ih h

theorem alookup_isSome_iff {α : Type} (l : List (String × α)) (k : String) :
    (alookup l k).isSome = true ↔ ∃ p ∈ l, p.1 = k := by
  induction l with
  | nil => simp
  | cons hd tl ih =>
    obtain ⟨k₀, v₀⟩ := hd
    rw [alookup_cons]
    by_cases hk : k₀ = k
    · simp [hk]
    · rw [if_neg hk]
      simp only [List.mem_cons, ih]
      constructor
      · rintro ⟨p, hp, he⟩
        exact ⟨p, Or.inr hp, he⟩
      · rintro ⟨p, hp | hp, he⟩
        · rw [hp] at he; exact absurd he hk
        · exact ⟨p, hp, he⟩

theorem alookup_eq_none_of_no_key {α : Type} (l : List (String × α)) (k : String)
    (h : ∀ p ∈ l, p.1 ≠ k) : alookup l k = none := by
  cases he : alookup l k with
  | none => rfl
  | some a =>
    have : (alookup l k).isSome = true := by rw [he]; rfl
    obtain ⟨p, hp, hk⟩ := (alookup_isSome_iff l k).mp this
    exact absurd hk (h p hp)

theorem findSome?_isSome_iff {α β : Type} (f : α → Option β) (l : List α) :
    (l.findSome? f).isSome = true ↔ ∃ x ∈ l, (f x).isSome = true := by
  induction l with
  | nil => simp
  | cons hd tl ih =>
    rw [List.findSome?_cons]
    cases hf : f hd with
    | some b => simp [hf]
    | none =>
      simp only [ih, List.mem_cons]
      constructor
      · rintro ⟨x, hx, hs⟩
        exact ⟨x, Or.inr hx, hs⟩
      · rintro ⟨x, hx | hx, hs⟩
        · rw [hx, hf] at hs; simp at hs
        · exact ⟨x, hx, hs⟩

theorem noAvailableActions_obj_cons (f : String × JValue) (fs : List (String × JValue)) :
    noAvailableActions (luaJsonEncode (.obj (f :: fs))) = false := by
  apply beq_eq_false_iff_ne.mpr
  intro h
  have hh := congrArg List.head? h
  rw [(luaJsonEncode_obj_head_last f fs).1] at hh
  simp at hh

theorem descriptorFor_name (k : String) (v : JValue) (ra : ResourceAction)
    (h : descriptorFor k v = .ok ra) : ra.name = k := by
  unfold descriptorFor at h
  by_cases he : emptyResourceActionFromLua v
  · rw [if_pos he] at h
    injection h with h
    rw [← h]
  · rw [if_neg he] at h
    match v with
    | .obj fields =>
      simp only at h
      cases hd : alookup fields "disabled" with
      | none => rw [hd] at h; injection h with h; rw [← h]
      | some dv =>
        rw [hd] at h
        match dv with
        | .bool b => injection h with h; rw [← h]
        | .null => injection h with h; rw [← h]
        | .num n => exact absurd h (by simp)
        | .str s => exact absurd h (by simp)
        | .arr xs => exact absurd h (by simp)
        | .obj o => exact absurd h (by simp)
    | .null => injection h with h; rw [← h]
    | .bool b => exact absurd h (by simp)
    | .num n => exact absurd h (by simp)
    | .str s => exact absurd h (by simp)
    | .arr xs => exact absurd (rfl : emptyResourceActionFromLua (.arr xs) = true) he

theorem stepField_preserves (acc : List (String × ResourceAction)) (field : String × JValue)
    (acc' : List (String × ResourceAction)) (k : String) (a : ResourceAction)
    (h : stepField acc field = .ok acc') (ha : alookup acc k = some a) :
    alookup acc' k = some a := by
  unfold stepField at h
  by_cases hp : (alookup acc field.1).isSome
  · rw [if_pos hp] at h; injection h with h; rw [← h]; exact ha
  · rw [if_neg hp] at h
    obtain ⟨ra, _, he⟩ := except_map_ok _ _ _ h
    rw [← he]
    exact alookup_append_of_some _ _ _ _ ha

theorem stepField_other (acc : List (String × ResourceAction)) (field : String × JValue)
    (acc' : List (String × ResourceAction)) (k : String) (hne : field.1 ≠ k)
    (h : stepField acc field = .ok acc') : alookup acc' k = alookup acc k := by
  unfold stepField at h
  by_cases hp : (alookup acc field.1).isSome
  · rw [if_pos hp] at h; injection h with h; rw [← h]
  · rw [if_neg hp] at h
    obtain ⟨ra, _, he⟩ := except_map_ok _ _ _ h
    rw [← he]
    cases hl : alookup acc k with
    | some a => exact alookup_append_of_some _ _ _ _ hl
    | none => rw [alookup_append_of_none _ _ _ _ hl, if_neg hne]

theorem stepFields_preserves (fields : List (String × JValue)) :
    ∀ (acc acc' : List (String × ResourceAction)) (k : String) (a : ResourceAction),
      fields.foldlM stepField acc = .ok acc' →
      alookup acc k = some a → alookup acc' k = some a := by
  induction fields with
  | nil =>
    intro acc acc' k a h ha
    simp only [List.foldlM_nil] at h
    injection h with h
    rw [← h]; exact ha
  | cons hd tl ih =>
    intro acc acc' k a h ha
    rw [List.foldlM_cons] at h
    obtain ⟨acc₁, h1, h2⟩ := except_bind_ok _ _ _ h
    exact ih acc₁ acc' k a h2 (stepField_preserves acc hd acc₁ k a h1 ha)

theorem stepFields_other (fields : List (String × JValue)) :
    ∀ (acc acc' : List (String × ResourceAction)) (k : String),
      fields.foldlM stepField acc = .ok acc' →
      alookup fields k = none →
      alookup acc' k = alookup acc k := by
  induction fields with
  | nil =>
    intro acc acc' k h _
    simp only [List.foldlM_nil] at h
    injection h with h
    rw [← h]
  | cons hd tl ih =>
    intro acc acc' k h hf
    obtain ⟨k₀, v₀⟩ := hd
    rw [alookup_cons] at hf
    by_cases hk : k₀ = k
    · rw [if_pos hk] at hf; exact absurd hf (by simp)
    · rw [if_neg hk] at hf
      rw [List.foldlM_cons] at h
      obtain ⟨acc₁, h1, h2⟩ := except_bind_ok _ _ _ h
      rw [ih acc₁ acc' k h2 hf, stepField_other acc (k₀, v₀) acc₁ k hk h1]

theorem stepFields_first (fields : List (String × JValue)) :
    ∀ (acc acc' : List (String × ResourceAction)) (k : String) (v : JValue),
      fields.foldlM stepField acc = .ok acc' →
      alookup acc k = none →
      alookup fields k = some v →
      ∃ ra, descriptorFor k v = .ok ra ∧ alookup acc' k = some ra := by
  induction fields with
  | nil =>
    intro acc acc' k v _ _ hf
    simp at hf
  | cons hd tl ih =>
    intro acc acc' k v h hacc hf
    obtain ⟨k₀, v₀⟩ := hd
    rw [alookup_cons] at hf
    rw [List.foldlM_cons] at h
    obtain ⟨acc₁, h1, h2⟩ := except_bind_ok _ _ _ h
    by_cases hk : k₀ = k
    · rw [if_pos hk] at hf
      injection hf with hf
      subst hf
      subst hk
      unfold stepField at h1
      rw [if_neg (by rw [hacc]; simp)] at h1
      obtain ⟨ra, hdesc, he⟩ := except_map_ok _ _ _ h1
      refine ⟨ra, hdesc, ?_⟩
      have hacc₁ : alookup acc₁ k₀ = some ra := by
        rw [← he, alookup_append_of_none _ _ _ _ hacc, if_pos rfl]
      exact stepFields_preserves tl acc₁ acc' k₀ ra h2 hacc₁
    · rw [if_neg hk] at hf
      have hacc₁ : alookup acc₁ k = none := by
        rw [stepField_other acc (k₀, v₀) acc₁ k hk h1]
        exact hacc
      exact ih acc₁ acc' k v h2 hacc₁ hf

theorem stepScript_ltable_obj (acc : List (String × ResourceAction))
    (fields : List (String × JValue)) :
    stepScript acc (.ltable (.obj fields))
      = if noAvailableActions (luaJsonEncode (.obj fields)) then .ok acc
        else fields.foldlM stepField acc := rfl

theorem stepScript_ok_shapes (acc acc' : List (String × ResourceAction)) (rv : LuaValue)
    (h : stepScript acc rv = .ok acc') :
    (∃ fields, rv = .ltable (.obj fields)) ∨ acc' = acc := by
  cases rv with
  | ltable v =>
    cases v with
    | obj fields => exact Or.inl ⟨fields, rfl⟩
    | null =>
      right
      by_cases hna : noAvailableActions (luaJsonEncode .null)
      · rw [show stepScript acc (.ltable .null) = if noAvailableActions (luaJsonEncode .null)
            then .ok acc else .error "error unmarshaling action table" from rfl, if_pos hna] at h
        injection h with h; exact h.symm
      · rw [show stepScript acc (.ltable .null) = if noAvailableActions (luaJsonEncode .null)
            then .ok acc else .error "error unmarshaling action table" from rfl, if_neg hna] at h
        simp at h
    | bool b =>
      right
      by_cases hna : noAvailableActions (luaJsonEncode (.bool b))
      · rw [show stepScript acc (.ltable (.bool b)) = if noAvailableActions (luaJsonEncode (.bool b))
            then .ok acc else .error "error unmarshaling action table" from rfl, if_pos hna] at h
        injection h with h; exact h.symm
      · rw [show stepScript acc (.ltable (.bool b)) = if noAvailableActions (luaJsonEncode (.bool b))
            then .ok acc else .error "error unmarshaling action table" from rfl, if_neg hna] at h
        simp at h
    | num n =>
      right
      by_cases hna : noAvailableActions (luaJsonEncode (.num n))
      · rw [show stepScript acc (.ltable (.num n)) = if noAvailableActions (luaJsonEncode (.num n))
            then .ok acc else .error "error unmarshaling action table" from rfl, if_pos hna] at h
        injection h with h; exact h.symm
      · rw [show stepScript acc (.ltable (.num n)) = if noAvailableActions (luaJsonEncode (.num n))
            then .ok acc else .error "error unmarshaling action table" from rfl, if_neg hna] at h
        simp at h
    | str s =>
      right
      by_cases hna : noAvailableActions (luaJsonEncode (.str s))
      · rw [show stepScript acc (.ltable (.str s)) = if noAvailableActions (luaJsonEncode (.str s))
            then .ok acc else .error "error unmarshaling action table" from rfl, if_pos hna] at h
        injection h with h; exact h.symm
      · rw [show stepScript acc (.ltable (.str s)) = if noAvailableActions (luaJsonEncode (.str s))
            then .ok acc else .error "error unmarshaling action table" from rfl, if_neg hna] at h
        simp at h
    | arr xs =>
      right
      by_cases hna : noAvailableActions (luaJsonEncode (.arr xs))
      · rw [show stepScript acc (.ltable (.arr xs)) = if noAvailableActions (luaJsonEncode (.arr xs))
            then .ok acc else .error "error unmarshaling action table" from rfl, if_pos hna] at h
        injection h with h; exact h.symm
      · rw [show stepScript acc (.ltable (.arr xs)) = if noAvailableActions (luaJsonEncode (.arr xs))
            then .ok acc else .error "error unmarshaling action table" from rfl, if_neg hna] at h
        simp at h
  | lnil => simp [stepScript] at h
  | lbool b => simp [stepScript] at h
  | lnum n => simp [stepScript] at h
  | lstr s => simp [stepScript] at h
  | lfunction => simp [stepScript] at h

theorem stepScript_preserves (acc : List (String × ResourceAction)) (rv : LuaValue)
    (acc' : List (String × ResourceAction)) (k : String) (a : ResourceAction)
    (h : stepScript acc rv = .ok acc') (ha : alookup acc k = some a) :
    alookup acc' k = some a := by
  rcases stepScript_ok_shapes acc acc' rv h with ⟨fields, rfl⟩ | rfl
  · rw [stepScript_ltable_obj] at h
    by_cases hna : noAvailableActions (luaJsonEncode (.obj fields))
    · rw [if_pos hna] at h; injection h with h; rw [← h]; exact ha
    · rw [if_neg hna] at h
      exact stepFields_preserves fields acc acc' k a h ha
  · exact ha

theorem stepScript_no_contribution (acc : List (String × ResourceAction)) (rv : LuaValue)
    (acc' : List (String × ResourceAction)) (k : String)
    (h : stepScript acc rv = .ok acc') (hc : contributes rv k = none) :
    alookup acc' k = alookup acc k := by
  rcases stepScript_ok_shapes acc acc' rv h with ⟨fields, rfl⟩ | rfl
  · rw [stepScript_ltable_obj] at h
    by_cases hna : noAvailableActions (luaJsonEncode (.obj fields))
    · rw [if_pos hna] at h; injection h with h; rw [← h]
    · rw [if_neg hna] at h
      exact stepFields_other fields acc acc' k h (by simpa [contributes] using hc)
  · rfl

theorem stepScript_first_contribution (acc : List (String × ResourceAction)) (rv : LuaValue)
    (acc' : List (String × ResourceAction)) (k : String) (v : JValue)
    (h : stepScript acc rv = .ok acc') (hacc : alookup acc k = none)
    (hc : contributes rv k = some v) :
    ∃ ra, descriptorFor k v = .ok ra ∧ alookup acc' k = some ra := by
  have hrv : ∃ fields, rv = .ltable (.obj fields) ∧ alookup fields k = some v := by
    cases rv with
    | ltable w =>
      cases w with
      | obj fields => exact ⟨fields, rfl, by simpa [contributes] using hc⟩
      | null => simp [contributes] at hc
      | bool b => simp [contributes] at hc
      | num n => simp [contributes] at hc
      | str s => simp [contributes] at hc
      | arr xs => simp [contributes] at hc
    | lnil => simp [contributes] at hc
    | lbool b => simp [contributes] at hc
    | lnum n => simp [contributes] at hc
    | lstr s => simp [contributes] at hc
    | lfunction => simp [contributes] at hc
  obtain ⟨fields, rfl, hf⟩ := hrv
  cases fields with
  | nil => simp at hf
  | cons f fs =>
    rw [stepScript_ltable_obj,
      if_neg (by rw [noAvailableActions_obj_cons f fs]; simp)] at h
    exact stepFields_first (f :: fs) acc acc' k v h hacc hf

theorem foldScripts_preserves (rs : List LuaValue) :
    ∀ (acc final : List (String × ResourceAction)) (k : String) (a : ResourceAction),
      rs.foldlM stepScript acc = .ok final →
      alookup acc k = some a → alookup final k = some a := by
  induction rs with
  | nil =>
    intro acc final k a h ha
    simp only [List.foldlM_nil] at h
    injection h with h
    rw [← h]; exact ha
  | cons rv rest ih =>
    intro acc final k a h ha
    rw [List.foldlM_cons] at h
    obtain ⟨acc₁, h1, h2⟩ := except_bind_ok _ _ _ h
    exact ih acc₁ final k a h2 (stepScript_preserves acc rv acc₁ k a h1 ha)

theorem foldScripts_none (rs : List LuaValue) :
    ∀ (acc final : List (String × ResourceAction)) (k : String),
      rs.foldlM stepScript acc = .ok final →
      alookup acc k = none →
      rs.findSome? (fun rv => contributes rv k) = none →
      alookup final k = none := by
  induction rs with
  | nil =>
    intro acc final k h hacc _
    simp only [List.foldlM_nil] at h
    injection h with h
    rw [← h]; exact hacc
  | cons rv rest ih =>
    intro acc final k h hacc hfs
    rw [List.findSome?_cons] at hfs
    rw [List.foldlM_cons] at h
    obtain ⟨acc₁, h1, h2⟩ := except_bind_ok _ _ _ h
    cases hc : contributes rv k with
    | some v => rw [hc] at hfs; simp at hfs
    | none =>
      rw [hc] at hfs
      have hacc₁ : alookup acc₁ k = none := by
        rw [stepScript_no_contribution acc rv acc₁ k h1 hc]; exact hacc
      exact ih acc₁ final k h2 hacc₁ hfs

theorem foldScripts_first (rs : List LuaValue) :
    ∀ (acc final : List (String × ResourceAction)) (k : String) (v : JValue),
      rs.foldlM stepScript acc = .ok final →
      alookup acc k = none →
      rs.findSome? (fun rv => contributes rv k) = some v →
      ∃ ra, descriptorFor k v = .ok ra ∧ alookup final k = some ra := by
  induction rs with
  | nil =>
    intro acc final k v _ _ hfs
    simp at hfs
  | cons rv rest ih =>
    intro acc final k v h hacc hfs
    rw [List.findSome?_cons] at hfs
    rw [List.foldlM_cons] at h
    obtain ⟨acc₁, h1, h2⟩ := except_bind_ok _ _ _ h
    cases hc : contributes rv k with
    | some w =>
      rw [hc] at hfs
      injection hfs with hfs
      subst hfs
      obtain ⟨ra, hdesc, hl⟩ := stepScript_first_contribution acc rv acc₁ k w h1 hacc hc
      exact ⟨ra, hdesc, foldScripts_preserves rest acc₁ final k ra h2 hl⟩
    | none =>
      rw [hc] at hfs
      have hacc₁ : alookup acc₁ k = none := by
        rw [stepScript_no_contribution acc rv acc₁ k h1 hc]; exact hacc
      exact ih acc₁ final k v h2 hacc₁ hfs

theorem stepField_invariants (acc : List (String × ResourceAction)) (field : String × JValue)
    (acc' : List (String × ResourceAction))
    (h : stepField acc field = .ok acc')
    (hnodup : (acc.map Prod.fst).Nodup) (hnames : ∀ p ∈ acc, p.2.name = p.1) :
    (acc'.map Prod.fst).Nodup ∧ (∀ p ∈ acc', p.2.name = p.1) := by
  unfold stepField at h
  by_cases hp : (alookup acc field.1).isSome
  · rw [if_pos hp] at h
    injection h with h
    subst h
    exact ⟨hnodup, hnames⟩
  · rw [if_neg hp] at h
    obtain ⟨ra, hdesc, he⟩ := except_map_ok _ _ _ h
    subst he
    constructor
    · rw [List.map_append, List.nodup_append]
      refine ⟨hnodup, List.nodup_singleton _, ?_⟩
      intro x hx hx'
      simp only [List.map_cons, List.map_nil, List.mem_singleton] at hx'
      subst hx'
      exact hp ((alookup_isSome_iff _ _).mpr (List.mem_map.mp hx))
    · intro p hp'
      rcases List.mem_append.mp hp' with hin | hin
      · exact hnames p hin
      · simp only [List.mem_singleton] at hin
        subst hin
        exact descriptorFor_name _ _ _ hdesc

theorem stepFields_invariants (fields : List (String × JValue)) :
    ∀ (acc acc' : List (String × ResourceAction)),
      fields.foldlM stepField acc = .ok acc' →
      (acc.map Prod.fst).Nodup → (∀ p ∈ acc, p.2.name = p.1) →
      (acc'.map Prod.fst).Nodup ∧ (∀ p ∈ acc', p.2.name = p.1) := by
  induction fields with
  | nil =>
    intro acc acc' h hnodup hnames
    simp only [List.foldlM_nil] at h
    injection h with h
    subst h
    exact ⟨hnodup, hnames⟩
  | cons hd tl ih =>
    intro acc acc' h hnodup hnames
    rw [List.foldlM_cons] at h
    obtain ⟨acc₁, h1, h2⟩ := except_bind_ok _ _ _ h
    obtain ⟨hn₁, hm₁⟩ := stepField_invariants acc hd acc₁ h1 hnodup hnames
    exact ih acc₁ acc' h2 hn₁ hm₁

theorem stepScript_invariants (acc : List (String × ResourceAction)) (rv : LuaValue)
    (acc' : List (String × ResourceAction))
    (h : stepScript acc rv = .ok acc')
    (hnodup : (acc.map Prod.fst).Nodup) (hnames : ∀ p ∈ acc, p.2.name = p.1) :
    (acc'.map Prod.fst).Nodup ∧ (∀ p ∈ acc', p.2.name = p.1) := by
  rcases stepScript_ok_shapes acc acc' rv h with ⟨fields, rfl⟩ | rfl
  · rw [stepScript_ltable_obj] at h
    by_cases hna : noAvailableActions (luaJsonEncode (.obj fields))
    · rw [if_pos hna] at h
      injection h with h
      subst h
      exact ⟨hnodup, hnames⟩
    · rw [if_neg hna] at h
      exact stepFields_invariants fields acc acc' h hnodup hnames
  · exact ⟨hnodup, hnames⟩

theorem foldScripts_invariants (rs : List LuaValue) :
    ∀ (acc final : List (String × ResourceAction)),
      rs.foldlM stepScript acc = .ok final →
      (acc.map Prod.fst).Nodup → (∀ p ∈ acc, p.2.name = p.1) →
      (final.map Prod.fst).Nodup ∧ (∀ p ∈ final, p.2.name = p.1) := by
  induction rs with
  | nil =>
    intro acc final h hnodup hnames
    simp only [List.foldlM_nil] at h
    injection h with h
    subst h
    exact ⟨hnodup, hnames⟩
  | cons rv rest ih =>
    intro acc final h hnodup hnames
    rw [List.foldlM_cons] at h
    obtain ⟨acc₁, h1, h2⟩ := except_bind_ok _ _ _ h
    obtain ⟨hn₁, hm₁⟩ := stepScript_invariants acc rv acc₁ h1 hnodup hnames
    exact ih acc₁ final h2 hn₁ hm₁

theorem find?_name_eq_alookup (final : List (String × ResourceAction)) (k : String)
    (hnames : ∀ p ∈ final, p.2.name = p.1) :
    (final.map Prod.snd).find? (fun a => a.name == k) = alookup final k := by
  induction final with
  | nil => rfl
  | cons hd tl ih =>
    obtain ⟨k₀, ra⟩ := hd
    have hname : ra.name = k₀ := hnames (k₀, ra) (List.mem_cons_self _ _)
    rw [List.map_cons, alookup_cons]
    by_cases hk : k₀ = k
    · rw [if_pos hk, List.find?_cons_of_pos _ (by simp [hname, hk])]
    · rw [if_neg hk, List.find?_cons_of_neg _ (by simp [hname]; exact hk),
        ih (fun p hp => hnames p (List.mem_cons_of_mem _ hp))]

theorem mem_name_iff (final : List (String × ResourceAction)) (k : String)
    (hnames : ∀ p ∈ final, p.2.name = p.1) :
    (∃ a ∈ final.map Prod.snd, a.name = k) ↔ (alookup final k).isSome = true := by
  rw [alookup_isSome_iff]
  constructor
  · rintro ⟨a, ha, hak⟩
    obtain ⟨p, hp, he⟩ := List.mem_map.mp ha
    refine ⟨p, hp, ?_⟩
    rw [← hnames p hp, he]
    exact hak
  · rintro ⟨p, hp, h1⟩
    refine ⟨p.2, List.mem_map_of_mem _ hp, ?_⟩
    rw [hnames p hp, h1]

theorem map_name_eq_map_fst (final : List (String × ResourceAction))
    (hnames : ∀ p ∈ final, p.2.name = p.1) :
    (final.map Prod.snd).map (fun a => a.name) = final.map Prod.fst := by
  induction final with
  | nil => rfl
  | cons hd tl ih =>
    rw [List.map_cons, List.map_cons, List.map_cons,
      hnames hd (List.mem_cons_self _ _),
      ih (fun p hp => hnames p (List.mem_cons_of_mem _ hp))]

theorem executeResourceActionDiscovery_cons (r : LuaValue) (rs : List LuaValue) :
    ExecuteResourceActionDiscovery (r :: rs)
      = ((r :: rs).foldlM stepScript []).map (fun acc => acc.map Prod.snd) := rfl

theorem discovery_names_characterization (rs : List LuaValue) (acts : List ResourceAction)
    (h : ExecuteResourceActionDiscovery rs = .ok acts) (k : String) :
    (∃ a ∈ acts, a.name = k) ↔ (∃ rv ∈ rs, (contributes rv k).isSome = true) := by
  cases rs with
  | nil => simp [ExecuteResourceActionDiscovery] at h
  | cons r rest =>
    rw [executeResourceActionDiscovery_cons] at h
    obtain ⟨final, hfold, hacts⟩ := except_map_ok _ _ _ h
    subst hacts
    obtain ⟨_, hnames⟩ := foldScripts_invariants (r :: rest) [] final hfold (by simp) (by simp)
    rw [mem_name_iff final k hnames, ← findSome?_isSome_iff]
    constructor
    · intro hsome
      cases hfs : (r :: rest).findSome? (fun rv => contributes rv k) with
      | none =>
        rw [foldScripts_none (r :: rest) [] final k hfold (by simp) hfs] at hsome
        simp at hsome
      | some v => rfl
    · intro hsome
      cases hfs : (r :: rest).findSome? (fun rv => contributes rv k) with
      | none => rw [hfs] at hsome; simp at hsome
      | some v =>
        obtain ⟨ra, _, hl⟩ := foldScripts_first (r :: rest) [] final k v hfold (by simp) hfs
        rw [hl]
        rfl

/-- C5: the action-discovery union-merge is first-writer-wins.  A name
already stored in the accumulator is never overwritten by a later script's
entry under the same name; when discovery succeeds, the result holds
exactly one descriptor per distinct name, namely the descriptor computed
from the entry of the earliest script defining that name
(`specFirstWriter` spells out the claim's words). -/
theorem discovery_first_writer_wins :
    (∀ (acc : List (String × ResourceAction)) (rv : LuaValue)
        (acc' : List (String × ResourceAction)) (k : String) (a : ResourceAction),
        stepScript acc rv = .ok acc' → alookup acc k = some a → alookup acc' k = some a)
    ∧ (∀ (results : List LuaValue) (acts : List ResourceAction),
        ExecuteResourceActionDiscovery results = .ok acts →
        (acts.map (fun a => a.name)).Nodup
          ∧ ∀ k : String, acts.find? (fun a => a.name == k) = specFirstWriter results k) := by
  constructor
  · exact fun acc rv acc' k a => stepScript_preserves acc rv acc' k a
  · intro results acts h
    cases results with
    | nil => simp [ExecuteResourceActionDiscovery] at h
    | cons r rest =>
      rw [executeResourceActionDiscovery_cons] at h
      obtain ⟨final, hfold, hacts⟩ := except_map_ok _ _ _ h
      subst hacts
      obtain ⟨hnodup, hnames⟩ := foldScripts_invariants (r :: rest) [] final hfold (by simp) (by simp)
      refine ⟨by rw [map_name_eq_map_fst final hnames]; exact hnodup, ?_⟩
      intro k
      rw [find?_name_eq_alookup final k hnames]
      unfold specFirstWriter
      cases hfs : (r :: rest).findSome? (fun rv => contributes rv k) with
      | none =>
        rw [foldScripts_none (r :: rest) [] final k hfold (by simp) hfs]
        rfl
      | some v =>
        obtain ⟨ra, hdesc, hl⟩ := foldScripts_first (r :: rest) [] final k v hfold (by simp) hfs
        rw [hl, Option.some_bind, hdesc]
        rfl

/-- C5 witness: with the accumulator already holding `restart` (enabled)
from an earlier script, a later script redefining `restart` as disabled is
ignored by the merge step. -/
theorem discovery_first_writer_wins_witness :
    alookup [("restart", ResourceAction.mk "restart" false)] "restart"
      = some (ResourceAction.mk "restart" false) :=
  discovery_first_writer_wins.1
    [("restart", ResourceAction.mk "restart" false)]
    (.ltable (.obj [("restart", .obj [("disabled", .bool true)])]))
    [("restart", ResourceAction.mk "restart" false)]
    "restart" (ResourceAction.mk "restart" false) rfl rfl

/-- C6: for every pair of script-result lists that are permutations of each
other and on which discovery succeeds, the set of action names produced is
the same (which script's descriptor wins for a duplicate name remains
order-dependent by first-writer-wins design). -/
theorem discovery_name_set_permutation_invariant :
    ∀ (results resultsP : List LuaValue) (acts actsP : List ResourceAction),
      results.Perm resultsP →
      ExecuteResourceActionDiscovery results = .ok acts →
      ExecuteResourceActionDiscovery resultsP = .ok actsP →
      ∀ k : String, (∃ a ∈ acts, a.name = k) ↔ (∃ a ∈ actsP, a.name = k) := by
  intro results resultsP acts actsP hperm h1 h2 k
  rw [discovery_names_characterization results acts h1 k,
    discovery_names_characterization resultsP actsP h2 k]
  constructor
  · rintro ⟨rv, hm, hs⟩
    exact ⟨rv, hperm.mem_iff.mp hm, hs⟩
  · rintro ⟨rv, hm, hs⟩
    exact ⟨rv, hperm.mem_iff.mpr hm, hs⟩

/-- C6 witness: two one-action scripts run in both orders produce the same
name set, checked at both names. -/
theorem discovery_name_set_permutation_invariant_witness :
    ((∃ a ∈ [ResourceAction.mk "a" false, ResourceAction.mk "b" false], a.name = "a")
      ↔ (∃ a ∈ [ResourceAction.mk "b" false, ResourceAction.mk "a" false], a.name = "a"))
    ∧ ((∃ a ∈ [ResourceAction.mk "a" false, ResourceAction.mk "b" false], a.name = "b")
      ↔ (∃ a ∈ [ResourceAction.mk "b" false, ResourceAction.mk "a" false], a.name = "b")) :=
  ⟨discovery_name_set_permutation_invariant
      [.ltable (.obj [("a", .null)]), .ltable (.obj [("b", .null)])]
      [.ltable (.obj [("b", .null)]), .ltable (.obj [("a", .null)])]
      [ResourceAction.mk "a" false, ResourceAction.mk "b" false]
      [ResourceAction.mk "b" false, ResourceAction.mk "a" false]
      (List.Perm.swap _ _ _) rfl rfl "a",
    discovery_name_set_permutation_invariant
      [.ltable (.obj [("a", .null)]), .ltable (.obj [("b", .null)])]
      [.ltable (.obj [("b", .null)]), .ltable (.obj [("a", .null)])]
      [ResourceAction.mk "a" false, ResourceAction.mk "b" false]
      [ResourceAction.mk "b" false, ResourceAction.mk "a" false]
      (List.Perm.swap _ _ _) rfl rfl "b"⟩

/-- Errors of the embedded-filesystem read (`resource_customizations.
Embedded.ReadFile` as classified by `getPredefinedLuaScripts`,
`lua.go:492-501`): the file does not exist, or any other read error. -/
inductive ReadErr where
  | notExist
  | other (msg : String)
  deriving DecidableEq

/-- Modelled from the spec: the actions block of a resource override —
discovery script text and the flag asking for built-in actions to be merged
in.  The Go `appv1.ResourceActions` struct is declared outside the sampled
sources; only the fields the sampled code consults are modelled. -/
structure ResourceActions where
  actionDiscoveryLua : String
  mergeBuiltinActions : Bool

/-- A user-supplied resource override as consulted by the sampled code:
health script text, the open-libraries flag, and the actions block.
`actions = none` models an empty `Actions` string, `some (.error e)` a
parse failure inside `GetActions`, and `some (.ok a)` a parsed block (the
Go `appv1.ResourceOverride` struct is declared outside the sampled sources;
the fields follow their use in `lua.go`). -/
structure ResourceOverride where
  healthLua : String
  useOpenLibs : Bool
  actions : Option (Except String ResourceActions)

/-- Model of `filepath.Join` for the two-segment joins this file performs
(the only shapes that occur: a clean directory, or a directory already
ending in a slash as in `key + "/actions/"`). -/
def joinPath (dir file : String) : String :=
  if dir.endsWith "/" then dir ++ file else dir ++ "/" ++ file

/-- Model of `getPredefinedLuaScripts` (`lua.go:492-501`): read one script
file from the compiled-in catalog, with not-found mapped to the
distinguished `errScriptDoesNotExist`.  The embedded filesystem itself is
outside the sampled sources, so the read is a parameter. -/
def getPredefinedLuaScripts (readFile : String → Except ReadErr String)
    (objKey scriptFile : String) : Except ReadErr String :=
  readFile (joinPath objKey scriptFile)

/-- A Kubernetes GroupVersionKind. -/
structure GroupVersionKind where
  group : String
  version : String
  kind : String

/-- Model of `GetConfigMapKey` (`lua.go:471-476`). -/
def GetConfigMapKey (gvk : GroupVersionKind) : String :=
  if gvk.group = "" then gvk.kind else gvk.group ++ "/" ++ gvk.kind

/-- Model of `getWildcardHealthOverrideLua` (`lua.go:481-490`): the first
encountered override whose key glob-matches the GVK key and whose health
script is non-empty.  Go iterates the override map in unspecified order;
the association-list order stands for one such order, and the
corresponding precedence clause only promises "some matching entry".  The
glob matcher (`argoglob.Match`) is an external library and is a
parameter. -/
def getWildcardHealthOverrideLua (globMatch : String → String → Bool)
    (overrides : List (String × ResourceOverride)) (gvkKey : String) : String × Bool :=
  match overrides.find? (fun kv => globMatch kv.1 gvkKey && kv.2.healthLua != "") with
  | some kv => (kv.2.healthLua, kv.2.useOpenLibs)
  | none => ("", false)

/-- Model of `getGlobHealthScriptPaths` (`lua.go:513-561`): from the walk
of the embedded catalog (a parameter, since the catalog is compiled in),
keep the health-script directories whose path contains the `_` wildcard
marker, validate each as a glob pattern, and sort the list once for
deterministic precedence.  `slices.Sort` is modelled by `insertionSort`,
which produces the same list for a total order. -/
def getGlobHealthScriptPaths (validatePattern : String → Bool)
    (healthDirs : List String) : Except String (List String) :=
  if (healthDirs.filter (fun p => p.contains '_')).all
      (fun g => validatePattern (g.replace "_" "*")) then
    .ok ((healthDirs.filter (fun p => p.contains '_')).insertionSort (· ≤ ·))
  else
    .error "invalid glob pattern"

/-- Model of `getWildcardBuiltInHealthOverrideLua` (`lua.go:563-583`): scan
the once-sorted wildcard patterns, and for the first one whose glob (the
`_` marker replaced by `*`) matches the key, read that directory's health
script; no match yields the empty script without error.  The doublestar
path matcher is an external library and is a parameter. -/
def getWildcardBuiltInHealthOverrideLua (readFile : String → Except ReadErr String)
    (pathMatch : String → String → Bool) (validatePattern : String → Bool)
    (healthDirs : List String) (objKey : String) : Except String String :=
  match getGlobHealthScriptPaths validatePattern healthDirs with
  | .error e => .error ("error getting health script globs: " ++ e)
  | .ok globs =>
    match globs.find? (fun g => pathMatch (g.replace "_" "*") objKey) with
    | none => .ok ""
    | some g =>
      match readFile (joinPath g "health.lua") with
      | .ok script => .ok script
      | .error _ => .error "error reading file in embedded filesystem"

/-- The fall-through tail of `GetHealthScript` (`lua.go:177-204`), reached
when there is no exact override hit: user wildcard override, then built-in
exact script, then built-in wildcard script, then "no script". -/
def healthScriptFallback (globMatch pathMatch : String → String → Bool)
    (validatePattern : String → Bool) (readFile : String → Except ReadErr String)
    (healthDirs : List String) (overrides : List (String × ResourceOverride))
    (key : String) : Except String (String × Bool) :=
  let wild := getWildcardHealthOverrideLua globMatch overrides key
  if wild.1 ≠ "" then .ok wild
  else
    match getPredefinedLuaScripts readFile key "health.lua" with
    | .ok builtInScript => .ok (builtInScript, true)
    | .error .notExist =>
      match getWildcardBuiltInHealthOverrideLua readFile pathMatch validatePattern
          healthDirs key with
      | .error e => .error ("error while fetching built-in health script: " ++ e)
      | .ok builtInScript =>
        if builtInScript ≠ "" then .ok (builtInScript, true)
        else .ok ("", false)
    | .error (.other e) => .error e

/-- Model of `GetHealthScript` (`lua.go:169-205`): resolution precedence
over the user overrides and the built-in catalog, returning the script text
and the library-surface flag, with the empty script text standing for
"no script". -/
def GetHealthScript (globMatch pathMatch : String → String → Bool)
    (validatePattern : String → Bool) (readFile : String → Except ReadErr String)
    (healthDirs : List String) (overrides : List (String × ResourceOverride))
    (key : String) : Except String (String × Bool) :=
  match alookup overrides key with
  | some ov =>
    if ov.healthLua ≠ "" then .ok (ov.healthLua, ov.useOpenLibs)
    else healthScriptFallback globMatch pathMatch validatePattern readFile healthDirs
      overrides key
  | none => healthScriptFallback globMatch pathMatch validatePattern readFile healthDirs
      overrides key

/-- The tail of `GetResourceActionDiscovery` (`lua.go:427-440`): append the
built-in discovery script for the exact key if one exists; its absence is
not an error. -/
def appendBuiltinDiscovery (readFile : String → Except ReadErr String) (key : String)
    (discoveryScripts : List String) : Except String (List String) :=
  match getPredefinedLuaScripts readFile (key ++ "/actions/") "discovery.lua" with
  | .error .notExist => .ok discoveryScripts
  | .error (.other e) => .error ("error while fetching predefined lua scripts: " ++ e)
  | .ok discoveryScript => .ok (discoveryScripts ++ [discoveryScript])

/-- Model of `GetResourceActionDiscovery` (`lua.go:409-441`): the user's
discovery script short-circuits unless the override asks for built-in
actions to be merged in; the built-in discovery script is appended when
present. -/
def GetResourceActionDiscovery (readFile : String → Except ReadErr String)
    (overrides : List (String × ResourceOverride)) (key : String) :
    Except String (List String) :=
  match alookup overrides key with
  | some ov =>
    match ov.actions with
    | some (.error e) => .error e
    | some (.ok actions) =>
      if actions.mergeBuiltinActions then
        appendBuiltinDiscovery readFile key [actions.actionDiscoveryLua]
      else
        .ok [actions.actionDiscoveryLua]
    | none => appendBuiltinDiscovery readFile key []
  | none => appendBuiltinDiscovery readFile key []

/-- C10: executing action discovery with zero scripts is an error, the
fixed message `no action discovery script provided`, even though script
resolution legitimately returns an empty list when no override supplies an
actions block and no built-in discovery script exists. -/
theorem discovery_with_zero_scripts_is_error :
    ExecuteResourceActionDiscovery [] = .error "no action discovery script provided"
    ∧ (∀ (readFile : String → Except ReadErr String)
        (overrides : List (String × ResourceOverride)) (key : String),
        alookup overrides key = none →
        readFile (joinPath (key ++ "/actions/") "discovery.lua") = .error .notExist →
        GetResourceActionDiscovery readFile overrides key = .ok []) := by
  refine ⟨rfl, ?_⟩
  intro readFile overrides key h1 h2
  simp only [GetResourceActionDiscovery, h1, appendBuiltinDiscovery,
    getPredefinedLuaScripts, h2]

/-- C10 witness: the empty override mapping and a catalog with no files
resolve to zero scripts, and running discovery with zero scripts errors. -/
theorem discovery_with_zero_scripts_is_error_witness :
    GetResourceActionDiscovery (fun _ => .error .notExist) [] "apps/Deployment" = .ok []
      ∧ ExecuteResourceActionDiscovery [] = .error "no action discovery script provided" :=
  ⟨discovery_with_zero_scripts_is_error.2 (fun _ => .error .notExist) [] "apps/Deployment"
      rfl rfl,
    discovery_with_zero_scripts_is_error.1⟩

theorem find?_sorted_is_min (p : String → Bool) :
    ∀ (l : List String), l.Sorted (· ≤ ·) → ∀ g, l.find? p = some g →
      ∀ x ∈ l, p x = true → g ≤ x := by
  intro l
  induction l with
  | nil =>
    intro _ g hg
    simp at hg
  | cons hd tl ih =>
    intro hs g hg x hx hpx
    by_cases hp : p hd = true
    · rw [List.find?_cons_of_pos _ hp] at hg
      injection hg with hg
      subst hg
      rcases List.mem_cons.mp hx with rfl | hx'
      · exact le_refl x
      · exact (List.sorted_cons.mp hs).1 x hx'
    · rw [List.find?_cons_of_neg _ hp] at hg
      rcases List.mem_cons.mp hx with rfl | hx'
      · exact absurd hpx hp
      · exact ih (List.sorted_cons.mp hs).2 g hg x hx' hpx

theorem getWildcardHealthOverrideLua_eq_none (globMatch : String → String → Bool)
    (overrides : List (String × ResourceOverride)) (key : String)
    (h : ∀ kv ∈ overrides, ¬(globMatch kv.1 key = true ∧ kv.2.healthLua ≠ "")) :
    getWildcardHealthOverrideLua globMatch overrides key = ("", false) := by
  unfold getWildcardHealthOverrideLua
  have hnone : overrides.find? (fun kv => globMatch kv.1 key && kv.2.healthLua != "") = none :=
    List.find?_eq_none.mpr (fun kv hkv hp => by
      rw [Bool.and_eq_true] at hp
      exact h kv hkv ⟨hp.1, bne_iff_ne.mp hp.2⟩)
  rw [hnone]

theorem getWildcardHealthOverrideLua_eq_some (globMatch : String → String → Bool)
    (overrides : List (String × ResourceOverride)) (key : String)
    (kv : String × ResourceOverride)
    (h : overrides.find? (fun kv => globMatch kv.1 key && kv.2.healthLua != "") = some kv) :
    getWildcardHealthOverrideLua globMatch overrides key
      = (kv.2.healthLua, kv.2.useOpenLibs) := by
  unfold getWildcardHealthOverrideLua
  rw [h]

theorem getHealthScript_no_exact (globMatch pathMatch : String → String → Bool)
    (validatePattern : String → Bool) (readFile : String → Except ReadErr String)
    (healthDirs : List String) (overrides : List (String × ResourceOverride)) (key : String)
    (hexact : ∀ o, alookup overrides key = some o → o.healthLua = "") :
    GetHealthScript globMatch pathMatch validatePattern readFile healthDirs overrides key
      = healthScriptFallback globMatch pathMatch validatePattern readFile healthDirs
          overrides key := by
  cases halook : alookup overrides key with
  | none => simp only [GetHealthScript, halook]
  | some o =>
    simp only [GetHealthScript, halook]
    rw [if_neg (by simp [hexact o halook])]

theorem healthScriptFallback_wildcard (globMatch pathMatch : String → String → Bool)
    (validatePattern : String → Bool) (readFile : String → Except ReadErr String)
    (healthDirs : List String) (overrides : List (String × ResourceOverride)) (key : String)
    (kv : String × ResourceOverride)
    (hf : overrides.find? (fun kv => globMatch kv.1 key && kv.2.healthLua != "") = some kv)
    (hne : kv.2.healthLua ≠ "") :
    healthScriptFallback globMatch pathMatch validatePattern readFile healthDirs overrides key
      = .ok (kv.2.healthLua, kv.2.useOpenLibs) := by
  simp only [healthScriptFallback,
    getWildcardHealthOverrideLua_eq_some globMatch overrides key kv hf]
  rw [if_pos hne]

theorem healthScriptFallback_builtin (globMatch pathMatch : String → String → Bool)
    (validatePattern : String → Bool) (readFile : String → Except ReadErr String)
    (healthDirs : List String) (overrides : List (String × ResourceOverride)) (key : String)
    (hno2 : ∀ kv ∈ overrides, ¬(globMatch kv.1 key = true ∧ kv.2.healthLua ≠ "")) :
    healthScriptFallback globMatch pathMatch validatePattern readFile healthDirs overrides key
      = match readFile (joinPath key "health.lua") with
        | .ok builtInScript => .ok (builtInScript, true)
        | .error .notExist =>
          match getWildcardBuiltInHealthOverrideLua readFile pathMatch validatePattern
              healthDirs key with
          | .error e => .error ("error while fetching built-in health script: " ++ e)
          | .ok builtInScript =>
            if builtInScript ≠ "" then .ok (builtInScript, true)
            else .ok ("", false)
        | .error (.other e) => .error e := by
  simp only [healthScriptFallback,
    getWildcardHealthOverrideLua_eq_none globMatch overrides key hno2,
    getPredefinedLuaScripts]
  rw [if_neg (by simp)]

/-- C2: health-script resolution precedence.  (1) An exact override key
with a non-empty health script wins, with that override's library flag.
(2) Otherwise, if some override entry glob-matches the key with a
non-empty health script, one such entry is returned with its own flag.
(3) Otherwise a built-in exact-match script is returned with the full
library surface.  (4) Otherwise, when the exact built-in read reports
not-exist, the chosen built-in wildcard pattern is glob-matching and
lexicographically least among all matching patterns of the once-sorted
index, and its script is returned with the full library surface.
(5) Otherwise no script and no error. -/
theorem getHealthScript_precedence :
    ∀ (globMatch pathMatch : String → String → Bool) (validatePattern : String → Bool)
      (readFile : String → Except ReadErr String) (healthDirs : List String)
      (overrides : List (String × ResourceOverride)) (key : String),
      (∀ ov, alookup overrides key = some ov → ov.healthLua ≠ "" →
        GetHealthScript globMatch pathMatch validatePattern readFile healthDirs overrides key
          = .ok (ov.healthLua, ov.useOpenLibs))
      ∧ ((∀ o, alookup overrides key = some o → o.healthLua = "") →
         (∃ kv ∈ overrides, globMatch kv.1 key = true ∧ kv.2.healthLua ≠ "") →
         ∃ kv ∈ overrides, globMatch kv.1 key = true ∧ kv.2.healthLua ≠ ""
           ∧ GetHealthScript globMatch pathMatch validatePattern readFile healthDirs
               overrides key = .ok (kv.2.healthLua, kv.2.useOpenLibs))
      ∧ ((∀ o, alookup overrides key = some o → o.healthLua = "") →
         (∀ kv ∈ overrides, ¬(globMatch kv.1 key = true ∧ kv.2.healthLua ≠ "")) →
         ∀ s, readFile (joinPath key "health.lua") = .ok s →
         GetHealthScript globMatch pathMatch validatePattern readFile healthDirs overrides key
           = .ok (s, true))
      ∧ ((∀ o, alookup overrides key = some o → o.healthLua = "") →
         (∀ kv ∈ overrides, ¬(globMatch kv.1 key = true ∧ kv.2.healthLua ≠ "")) →
         readFile (joinPath key "health.lua") = .error .notExist →
         ∀ globs g s,
           getGlobHealthScriptPaths validatePattern healthDirs = .ok globs →
           globs.find? (fun g2 => pathMatch (g2.replace "_" "*") key) = some g →
           readFile (joinPath g "health.lua") = .ok s → s ≠ "" →
           GetHealthScript globMatch pathMatch validatePattern readFile healthDirs overrides
               key = .ok (s, true)
             ∧ pathMatch (g.replace "_" "*") key = true
             ∧ ∀ g2 ∈ healthDirs, g2.contains '_' = true →
                 pathMatch (g2.replace "_" "*") key = true → g ≤ g2)
      ∧ ((∀ o, alookup overrides key = some o → o.healthLua = "") →
         (∀ kv ∈ overrides, ¬(globMatch kv.1 key = true ∧ kv.2.healthLua ≠ "")) →
         readFile (joinPath key "health.lua") = .error .notExist →
         getWildcardBuiltInHealthOverrideLua readFile pathMatch validatePattern healthDirs
             key = .ok "" →
         GetHealthScript globMatch pathMatch validatePattern readFile healthDirs overrides key
           = .ok ("", false)) := by
  intro globMatch pathMatch validatePattern readFile healthDirs overrides key
  refine ⟨?_, ?_, ?_, ?_, ?_⟩
  · intro ov halook hne
    simp only [GetHealthScript, halook]
    rw [if_pos hne]
  · intro h1 hex
    cases hf : overrides.find? (fun kv => globMatch kv.1 key && kv.2.healthLua != "") with
    | none =>
      exfalso
      obtain ⟨kv, hm, hg, hs⟩ := hex
      exact List.find?_eq_none.mp hf kv hm
        (by rw [Bool.and_eq_true]; exact ⟨hg, bne_iff_ne.mpr hs⟩)
    | some kv =>
      have hmem := List.mem_of_find?_eq_some hf
      have hp := List.find?_some hf
      rw [Bool.and_eq_true] at hp
      have hne := bne_iff_ne.mp hp.2
      refine ⟨kv, hmem, hp.1, hne, ?_⟩
      rw [getHealthScript_no_exact _ _ _ _ _ _ _ h1]
      exact healthScriptFallback_wildcard _ _ _ _ _ _ _ kv hf hne
  · intro h1 h2 s hread
    rw [getHealthScript_no_exact _ _ _ _ _ _ _ h1,
      healthScriptFallback_builtin _ _ _ _ _ _ _ h2, hread]
  · intro h1 h2 hread globs g s hglobs hfind hreadg hs
    have hglobs' : globs = (healthDirs.filter (fun p => p.contains '_')).insertionSort (· ≤ ·) := by
      unfold getGlobHealthScriptPaths at hglobs
      by_cases hv : (healthDirs.filter (fun p => p.contains '_')).all
          (fun g2 => validatePattern (g2.replace "_" "*")) = true
      · rw [if_pos hv] at hglobs
        injection hglobs with hglobs
        exact hglobs.symm
      · rw [if_neg hv] at hglobs
        simp at hglobs
    have hps := List.find?_some hfind
    simp only at hps
    refine ⟨?_, hps, ?_⟩
    · rw [getHealthScript_no_exact _ _ _ _ _ _ _ h1,
        healthScriptFallback_builtin _ _ _ _ _ _ _ h2, hread]
      have hwb : getWildcardBuiltInHealthOverrideLua readFile pathMatch validatePattern
          healthDirs key = .ok s := by
        simp only [getWildcardBuiltInHealthOverrideLua, hglobs, hfind, hreadg]
      rw [hwb]
      simp only [if_pos hs]
    · intro g2 hg2 hg2w hg2m
      have hg2f : g2 ∈ healthDirs.filter (fun p => p.contains '_') :=
        List.mem_filter.mpr ⟨hg2, hg2w⟩
      have hg2s : g2 ∈ globs := by
        rw [hglobs']
        exact ((List.perm_insertionSort _ _).mem_iff).mpr hg2f
      have hsorted : globs.Sorted (· ≤ ·) := by
        rw [hglobs']
        exact List.sorted_insertionSort _ _
      exact find?_sorted_is_min _ globs hsorted g hfind g2 hg2s hg2m
  · intro h1 h2 hread hwb
    rw [getHealthScript_no_exact _ _ _ _ _ _ _ h1,
      healthScriptFallback_builtin _ _ _ _ _ _ _ h2, hread, hwb]
    simp

/-- C2 witness: an exact override for `apps/Deployment` with a non-empty
health script wins with its own library flag. -/
theorem getHealthScript_precedence_witness :
    GetHealthScript (fun _ _ => false) (fun _ _ => false) (fun _ => true)
        (fun _ => .error .notExist) []
        [("apps/Deployment", ResourceOverride.mk "obj = 1" true none)] "apps/Deployment"
      = .ok ("obj = 1", true) :=
  (getHealthScript_precedence (fun _ _ => false) (fun _ _ => false) (fun _ => true)
      (fun _ => .error .notExist) []
      [("apps/Deployment", ResourceOverride.mk "obj = 1" true none)] "apps/Deployment").1
    (ResourceOverride.mk "obj = 1" true none) rfl (by simp)
